import Mathlib

/-!
# Verification of `quinn/src/notify.rs` (`NotifyOwned` / `Waiter`)

Shallow embedding of the broadcast-notification primitive in
`src/quinn/src/notify.rs`, together with theorems settling the claims of
the natural-language specification.

Modelling conventions:

* A `Waker` is opaque to the code (only cloned and invoked), so it is
  modelled as a bare identifier (`Nat`).
* `slab::Slab<Waker>` is modelled faithfully: an entry vector whose
  entries are either `occupied` or `vacant` (the vacant entries forming a
  LIFO free list threaded through `next`), plus the vector's capacity.
  `u64` arithmetic is `Nat` with explicit `% 2 ^ 64` where the source uses
  `wrapping_add`.
* Fallible operations (Rust panics: `debug_assert!`, slab's `unreachable!`,
  indexing a vacant slot, `remove` of a vacant key) return `Option`, with
  `none` for a panic.
* The `Mutex` serialises all operations, so each public operation is one
  atomic transition of the shared state; a whole-system small-step
  function (`stepOp`) runs traces of operations against one shared state
  and any number of waiters.
-/

namespace Notify

/-- An opaque wake handle (`std::task::Waker`); only its identity matters. -/
abbrev Waker := Nat

/-- One slot of `slab::Slab`: either an occupied value, or a vacant slot
holding the index of the next slot on the free list. -/
inductive Entry (α : Type) where
  | occupied : α → Entry α
  | vacant : Nat → Entry α
deriving DecidableEq, Repr

/-- Returns `true` exactly on `Entry.vacant`. -/
def Entry.isVacant {α : Type} : Entry α → Bool
  | .vacant _ => true
  | .occupied _ => false

/-- Model of `slab::Slab<α>`: entry vector, head of the vacant free list (`next`),
and the backing vector's capacity. -/
structure Slab (α : Type) where
  entries : List (Entry α)
  next : Nat
  capacity : Nat
deriving DecidableEq, Repr

namespace Slab

variable {α : Type}

/-- Rust `Slab::new()`: empty slab with capacity 0. -/
def new : Slab α := ⟨[], 0, 0⟩

/-- Rust `Slab::with_capacity(n)`: empty slab with capacity `n`. -/
def withCapacity (n : Nat) : Slab α := ⟨[], 0, n⟩

/-- Rust `Slab::len()`: the number of occupied entries (the slab caches this
count in a field; its value is always the number of occupied entries). -/
def len (s : Slab α) : Nat := s.entries.countP (fun e => !e.isVacant)

/-- Rust `Slab::contains(key)`: `key` indexes a live (occupied) entry. -/
def contains (s : Slab α) (key : Nat) : Bool :=
  match s.entries[key]? with
  | some (.occupied _) => true
  | _ => false

/-- The capacity of the entry vector after a `push` that may reallocate.
Rust's `Vec` growth policy is amortised doubling with a minimal nonzero
capacity of 4 for an element of `Waker`'s size; no theorem below depends
on the exact figure. -/
def growCapacity (s : Slab α) : Nat :=
  if s.entries.length = s.capacity then max 4 (2 * s.capacity) else s.capacity

/-- Rust `Slab::insert(val)`: take the free-list head `next` as the key.  If it
is one past the end, push; otherwise the slot must be vacant — occupy it
and advance the free list to its stored successor.  A non-vacant slot at
`next` (impossible in a well-formed slab) is slab's `unreachable!()`
panic, hence `none`. -/
def insert (s : Slab α) (v : α) : Option (Nat × Slab α) :=
  let key := s.next
  if key = s.entries.length then
    some (key, ⟨s.entries ++ [.occupied v], key + 1, s.growCapacity⟩)
  else
    match s.entries[key]? with
    | some (.vacant n) => some (key, ⟨s.entries.set key (.occupied v), n, s.capacity⟩)
    | _ => none

/-- Assignment `slab[key] = v` (`IndexMut`): overwrite an occupied slot in place;
panics (`none`) if the key is vacant or out of bounds. -/
def setOccupied (s : Slab α) (key : Nat) (v : α) : Option (Slab α) :=
  match s.entries[key]? with
  | some (.occupied _) => some ⟨s.entries.set key (.occupied v), s.next, s.capacity⟩
  | _ => none

/-- Rust `Slab::remove(key)`: vacate an occupied slot, pushing it onto the free
list; panics (`none`) if the key is vacant or out of bounds. -/
def remove (s : Slab α) (key : Nat) : Option (α × Slab α) :=
  match s.entries[key]? with
  | some (.occupied v) =>
      some (v, ⟨s.entries.set key (.vacant s.next), key, s.capacity⟩)
  | _ => none

/-- Rust `Slab::drain()`: yield every occupied value in index order; the slab
is left empty (entry vector cleared, free list reset), capacity kept. -/
def drain (s : Slab α) : List α × Slab α :=
  (s.entries.filterMap (fun e =>
      match e with
      | .occupied v => some v
      | .vacant _ => none),
   ⟨[], 0, s.capacity⟩)

end Slab

/-- The modulus of `u64` arithmetic. -/
def u64Mod : Nat := 2 ^ 64

/-- Model of `struct Shared { version: u64, wakers: Slab<Waker> }`. -/
structure Shared where
  version : Nat
  wakers : Slab Waker
deriving DecidableEq, Repr

/-- Model of `struct State { version: u64, index: usize }` — a Waiter's record of
its registration. -/
structure State where
  version : Nat
  index : Nat
deriving DecidableEq, Repr

/-- Rust `NotifyOwned::new()`: version 0, empty slab.  (`NotifyOwned::clone()`
shares the same `Shared` behind the `Arc` and has no effect on it, so it
needs no transition in this model.) -/
def sharedNew : Shared := ⟨0, Slab.new⟩

/-- The body of `NotifyOwned::notify_all()`, as a function of the shared state:
wrapping-increment the version, read `len`, drain (collecting the drained
wakers, which the loop invokes), then shrink: if `n * 4 < capacity`,
replace the slab by `Slab::with_capacity(n)`.  Returns the invoked wakers
and the new shared state. -/
def notifyAll (s : Shared) : List Waker × Shared :=
  let version := (s.version + 1) % u64Mod
  let n := s.wakers.len
  let (drained, wakers₁) := s.wakers.drain
  let wakers₂ := if n * 4 < wakers₁.capacity then Slab.withCapacity n else wakers₁
  (drained, ⟨version, wakers₂⟩)

/-- Rust `Waiter::register(ctx)` as a function of the waiter's `state` field
and the shared state, with the new waker `w` (`ctx.waker().clone()`).

* `None`: insert the waker, record `(version, index)`.
* `Some { version, index }`: the source asserts
  `debug_assert!(shared.version == version)` (erased in release builds)
  and executes `shared.wakers[index] = w`, which panics when `index` is
  vacant.  No fresh slot is ever inserted and the stored pair is kept.

Returns `none` on panic, otherwise the new waiter state and shared state. -/
def register (st : Option State) (s : Shared) (w : Waker) :
    Option (Option State × Shared) :=
  match st with
  | none =>
      match s.wakers.insert w with
      | some (key, wk) => some (some ⟨s.version, key⟩, ⟨s.version, wk⟩)
      | none => none
  | some ⟨version, index⟩ =>
      match s.wakers.setOccupied index w with
      | some wk => some (some ⟨version, index⟩, ⟨s.version, wk⟩)
      | none => none

/-- Rust `impl Drop for Waiter`: if a registration is present and the lock is
acquired (`lockOk`; `Err` on a poisoned lock is silently ignored), remove
the slot only when the stored version still equals the current version.
`slab::Slab::remove` panics (`none`) on a vacant key. -/
def dropWaiter (st : Option State) (lockOk : Bool) (s : Shared) : Option Shared :=
  match st with
  | none => some s
  | some ⟨version, index⟩ =>
      if lockOk then
        if s.version = version then
          match s.wakers.remove index with
          | some (_, wk) => some ⟨s.version, wk⟩
          | none => none
        else some s
      else some s

/-! ## Lock-scope event trace of `notify_all`

`notify_all` acquires the mutex on its first line; the `waker.wake()`
calls happen in the `for` loop over `drain()` while the `MutexGuard`
`shared` is still alive; the guard is dropped at the end of the function
body.  `notifyAllEvents` records that order. -/

/-- Events of one `notify_all` call, in program order. -/
inductive LockEvent where
  | acquired
  | wake (w : Waker)
  | released
deriving DecidableEq, Repr

/-- Returns `true` exactly on `LockEvent.wake`. -/
def LockEvent.isWake : LockEvent → Bool
  | .wake _ => true
  | _ => false

/-- Returns `true` exactly on `LockEvent.released`. -/
def LockEvent.isReleased : LockEvent → Bool
  | .released => true
  | _ => false

/-- The lock/wake event trace of one `notify_all` call: the mutex is
acquired, each drained waker is woken inside the critical section, and
the guard is released when the function returns. -/
def notifyAllEvents (s : Shared) : List LockEvent :=
  .acquired :: ((s.wakers.drain).1.map .wake ++ [.released])

/-- Decides "every callback is invoked only after the lock has been
released": no `wake` event precedes the first `released` event. -/
def invokesOnlyAfterRelease (evs : List LockEvent) : Bool :=
  (evs.takeWhile (fun e => !e.isReleased)).all (fun e => !e.isWake)

/-! ## Whole-system traces -/

/-- A waiter cell of the system: still alive (with its `state` field), or
already dropped. -/
inductive WStatus where
  | active : Option State → WStatus
  | dropped : WStatus
deriving DecidableEq, Repr

/-- The whole system: the one shared state and every waiter ever created
(by position of creation). -/
structure Sys where
  shared : Shared
  waiters : List WStatus
deriving DecidableEq, Repr

/-- Operations of the public interface.  `drop`'s `lockOk` models whether
the lock acquisition in `Waiter::drop` succeeds (`false` = poisoned). -/
inductive Op where
  | wait : Op
  | register : Nat → Waker → Op
  | notifyAll : Op
  | drop : Nat → Bool → Op
deriving DecidableEq, Repr

/-- Returns `true` exactly on `Op.notifyAll`. -/
def Op.isNotifyAll : Op → Bool
  | .notifyAll => true
  | _ => false

/-- One atomic transition: `none` when the operation is invalid for the
state (no such live waiter) or the source panics.  Returns the new system
and the wakers invoked by the operation. -/
def stepOp (sys : Sys) : Op → Option (Sys × List Waker)
  | .wait => some (⟨sys.shared, sys.waiters ++ [.active none]⟩, [])
  | .register i w =>
      match sys.waiters[i]? with
      | some (.active st) =>
          match register st sys.shared w with
          | some (st', sh') => some (⟨sh', sys.waiters.set i (.active st')⟩, [])
          | none => none
      | _ => none
  | .notifyAll =>
      let (ws, sh') := notifyAll sys.shared
      some (⟨sh', sys.waiters⟩, ws)
  | .drop i lockOk =>
      match sys.waiters[i]? with
      | some (.active st) =>
          match dropWaiter st lockOk sys.shared with
          | some sh' => some (⟨sh', sys.waiters.set i .dropped⟩, [])
          | none => none
      | _ => none

/-- The initial system: one fresh `NotifyOwned`, no waiters. -/
def initSys : Sys := ⟨sharedNew, []⟩

/-- Run a list of operations from a given system; `none` if any step
fails. -/
def runFrom (sys : Sys) : List Op → Option Sys
  | [] => some sys
  | op :: ops =>
      match stepOp sys op with
      | some (sys', _) => runFrom sys' ops
      | none => none

/-- Run a list of operations from the initial system. -/
def runOps (ops : List Op) : Option Sys := runFrom initSys ops

/-- Number of `notifyAll` operations in a trace. -/
def countNotify (ops : List Op) : Nat := ops.countP (fun op => op.isNotifyAll)

/-- Iterate `notify_all` on the shared state, discarding invoked wakers. -/
def iterNotify : Nat → Shared → Shared
  | 0, s => s
  | k + 1, s => iterNotify k (notifyAll s).2

/-! ## Slab well-formedness

The vacant entries of a `slab::Slab` form a linked free list threaded
through the `vacant` payloads, starting at `next` and terminated by the
entry count.  `FreeChain entries n l` says that starting from `n` the
free list visits exactly the indices in `l` (without repetition) and ends
at `entries.length`; a slab is well formed when its free list exists and
covers every vacant entry. -/

inductive FreeChain {α : Type} : List (Entry α) → Nat → List Nat → Prop where
  | nil (entries : List (Entry α)) : FreeChain entries entries.length []
  | cons {entries : List (Entry α)} {i n : Nat} {l : List Nat} :
      entries[i]? = some (.vacant n) → i ∉ l → FreeChain entries n l →
      FreeChain entries i (i :: l)

/-- A well-formed slab: the free list exists and contains every vacant
index. -/
def slabWF {α : Type} (s : Slab α) : Prop :=
  ∃ l, FreeChain s.entries s.next l ∧
    ∀ j n, s.entries[j]? = some (.vacant n) → j ∈ l

theorem FreeChain.mem_vacant {α : Type} {es : List (Entry α)} {n : Nat}
    {l : List Nat} (h : FreeChain es n l) :
    ∀ i ∈ l, ∃ m, es[i]? = some (.vacant m) := by
  induction h with
  | nil => intro i hi; cases hi
  | cons hlook hnot htail ih =>
      intro i hi
      rcases List.mem_cons.mp hi with rfl | hi
      · exact ⟨_, hlook⟩
      · exact ih i hi

/-- Case analysis on the head of a free chain: either it is the
terminator (and the chain is empty), or it is a vacant entry followed by
the rest of the chain. -/
theorem FreeChain.head_cases {α : Type} {es : List (Entry α)} {n : Nat}
    {l : List Nat} (h : FreeChain es n l) :
    (n = es.length ∧ l = []) ∨
      ∃ m l', es[n]? = some (.vacant m) ∧ n ∉ l' ∧ l = n :: l' ∧
        FreeChain es m l' := by
  cases h with
  | nil => exact Or.inl ⟨rfl, rfl⟩
  | cons hlook hnot htail => exact Or.inr ⟨_, _, hlook, hnot, rfl, htail⟩

theorem FreeChain.set_not_mem {α : Type} {es : List (Entry α)} {n k : Nat}
    {l : List Nat} {e : Entry α} (h : FreeChain es n l) (hk : k ∉ l) :
    FreeChain (es.set k e) n l := by
  induction l generalizing n with
  | nil =>
      rcases h.head_cases with ⟨rfl, _⟩ | ⟨m, l', _, _, heq, _⟩
      · rw [show es.length = (es.set k e).length from (List.length_set es k e).symm]
        exact FreeChain.nil _
      · cases heq
  | cons i t ih =>
      rcases h.head_cases with ⟨_, heq⟩ | ⟨m, l', hlook, hnot, heq, htail⟩
      · cases heq
      · injection heq with h1 h2
        subst h1
        subst h2
        have hk1 : k ∉ t := fun hm => hk (List.mem_cons_of_mem _ hm)
        have hki : k ≠ i := fun he => hk (he ▸ List.mem_cons_self _ _)
        exact FreeChain.cons (by rw [List.getElem?_set_ne hki]; exact hlook)
          hnot (ih htail hk1)

theorem slabWF_empty {α : Type} (nx c : Nat) (h : nx = 0) :
    slabWF (⟨[], nx, c⟩ : Slab α) := by
  subst h
  exact ⟨[], FreeChain.nil [], by intro j n hj; simp at hj⟩

theorem slabWF_new {α : Type} : slabWF (Slab.new : Slab α) := slabWF_empty 0 0 rfl

theorem slabWF_withCapacity {α : Type} (n : Nat) :
    slabWF (Slab.withCapacity n : Slab α) := slabWF_empty 0 n rfl

theorem slabWF_drain {α : Type} (s : Slab α) : slabWF (s.drain).2 :=
  slabWF_empty 0 s.capacity rfl

theorem Entry.isVacant_occupied {α : Type} (v : α) :
    (Entry.occupied v).isVacant = false := rfl

theorem Entry.isVacant_vacant {α : Type} (n : Nat) :
    ((Entry.vacant n : Entry α)).isVacant = true := rfl

theorem Slab.one_le_countP_of_occupied {α : Type} {es : List (Entry α)}
    {key : Nat} {w : α} (hl : es[key]? = some (.occupied w)) :
    1 ≤ es.countP (fun e => !e.isVacant) := by
  rw [List.countP_eq_length_filter]
  have hmem : Entry.occupied w ∈ es.filter (fun e => !e.isVacant) := by
    rw [List.mem_filter]
    exact ⟨List.getElem?_mem hl, by simp [Entry.isVacant_occupied]⟩
  exact List.length_pos.mpr (fun he => by rw [he] at hmem; cases hmem)

/-- In a well-formed slab, `insert` never hits the `unreachable!` panic. -/
theorem Slab.insert_isSome {α : Type} (s : Slab α) (hwf : slabWF s) (v : α) :
    (s.insert v).isSome := by
  obtain ⟨l, hchain, _⟩ := hwf
  unfold Slab.insert
  rcases hchain.head_cases with ⟨hend, _⟩ | ⟨m, l', hlook, _, _, _⟩
  · simp [hend]
  · have hne : s.next ≠ s.entries.length := by
      intro he
      rw [he, List.getElem?_eq_none (Nat.le_refl _)] at hlook
      cases hlook
    simp only [hne, if_false, hlook, Option.isSome_some]

theorem Slab.contains_eq_true_iff {α : Type} (s : Slab α) (key : Nat) :
    s.contains key = true ↔ ∃ v, s.entries[key]? = some (.occupied v) := by
  unfold Slab.contains
  constructor
  · intro h
    match hl : s.entries[key]? with
    | some (.occupied v) => exact ⟨v, rfl⟩
    | some (.vacant n) => rw [hl] at h; cases h
    | none => rw [hl] at h; cases h
  · rintro ⟨v, hv⟩
    rw [hv]

/-- Everything `insert` guarantees on success: the key is the old
free-list head and was not occupied, it is occupied afterwards, every
other index is untouched, the occupied count grows by one, and
well-formedness is preserved. -/
theorem Slab.insert_spec {α : Type} (s : Slab α) (v : α) (key : Nat)
    (s' : Slab α) (hwf : slabWF s) (h : s.insert v = some (key, s')) :
    key = s.next ∧ s.contains key = false ∧
      s'.entries[key]? = some (.occupied v) ∧
      (∀ j, j ≠ key → s'.entries[j]? = s.entries[j]?) ∧
      s'.len = s.len + 1 ∧ slabWF s' := by
  obtain ⟨l, hchain, hcompl⟩ := hwf
  unfold Slab.insert at h
  by_cases hend : s.next = s.entries.length
  · rw [if_pos hend] at h
    obtain ⟨rfl, rfl⟩ : key = s.next ∧
        s' = ⟨s.entries ++ [.occupied v], s.next + 1, s.growCapacity⟩ := by
      cases h; exact ⟨rfl, rfl⟩
    -- a chain starting at the terminator is empty, so no entry is vacant
    have hlnil : l = [] := by
      rcases hchain.head_cases with ⟨_, hnil⟩ | ⟨m, l', hlook, _, _, _⟩
      · exact hnil
      · rw [hend, List.getElem?_eq_none (Nat.le_refl _)] at hlook
        cases hlook
    subst hlnil
    have hnovac : ∀ (j n : Nat), s.entries[j]? = some (Entry.vacant n) → False := by
      intro j n hj; simpa using hcompl j n hj
    refine ⟨rfl, ?_, ?_, ?_, ?_, ?_⟩
    · unfold Slab.contains
      rw [hend, List.getElem?_eq_none (Nat.le_refl _)]
    · rw [hend]
      exact List.getElem?_concat_length s.entries (Entry.occupied v)
    · intro j hj
      rcases Nat.lt_or_ge j s.entries.length with hlt | hge
      · exact List.getElem?_append_left hlt
      · have hgt : s.entries.length < j := by
          rcases Nat.eq_or_lt_of_le hge with he | hlt
          · exact absurd (hend.trans he).symm hj
          · exact hlt
        rw [List.getElem?_eq_none hge,
          List.getElem?_append_right (Nat.le_of_lt hgt),
          List.getElem?_eq_none]
        simp
        omega
    · unfold Slab.len
      rw [List.countP_append]
      simp [Entry.isVacant_occupied]
    · refine ⟨[], ?_, ?_⟩
      · have : s.next + 1 = (s.entries ++ [Entry.occupied v]).length := by
          simp [hend]
        rw [this]; exact FreeChain.nil _
      · intro j n hj
        rcases Nat.lt_or_ge j s.entries.length with hlt | hge
        · rw [List.getElem?_append_left hlt] at hj
          exact absurd hj (fun hj => hnovac j n hj)
        · rw [List.getElem?_append_right hge] at hj
          rcases Nat.eq_or_lt_of_le hge with he | hlt
          · rw [← he, Nat.sub_self] at hj
            simp at hj
          · rw [List.getElem?_eq_none] at hj
            · cases hj
            · simp only [List.length_cons, List.length_nil]
              omega
  · rw [if_neg hend] at h
    -- the free-list head is vacant; the chain starts with it
    rcases hchain.head_cases with ⟨he, _⟩ | ⟨m, l', hlook, hnot, rfl, htail⟩
    · exact absurd he hend
    · rw [hlook] at h
      obtain ⟨rfl, rfl⟩ : key = s.next ∧
          s' = ⟨s.entries.set s.next (.occupied v), m, s.capacity⟩ := by
        cases h; exact ⟨rfl, rfl⟩
      have hklt : s.next < s.entries.length := by
        by_contra hge
        rw [List.getElem?_eq_none (Nat.le_of_not_lt hge)] at hlook
        cases hlook
      have hget : s.entries[s.next] = Entry.vacant m :=
        (List.getElem?_eq_some.mp hlook).choose_spec
      refine ⟨rfl, ?_, ?_, ?_, ?_, ?_⟩
      · unfold Slab.contains
        rw [hlook]
      · exact List.getElem?_set_self hklt
      · intro j hj
        exact List.getElem?_set_ne (fun he => hj he.symm)
      · unfold Slab.len
        rw [List.countP_set _ _ _ _ hklt, hget]
        simp [Entry.isVacant_vacant, Entry.isVacant_occupied]
      · refine ⟨l', FreeChain.set_not_mem htail hnot, ?_⟩
        intro j n hj
        by_cases hje : j = s.next
        · subst hje
          rw [List.getElem?_set_self hklt] at hj
          cases hj
        · rw [List.getElem?_set_ne (fun he => hje he.symm)] at hj
          have := hcompl j n hj
          rcases List.mem_cons.mp this with he | hm
          · exact absurd he hje
          · exact hm

/-- The assignment `slab[key] = v` succeeds exactly on an occupied key. -/
theorem Slab.setOccupied_isSome_iff {α : Type} (s : Slab α) (key : Nat) (v : α) :
    (s.setOccupied key v).isSome ↔ s.contains key = true := by
  unfold Slab.setOccupied Slab.contains
  match hl : s.entries[key]? with
  | some (.occupied w) => simp
  | some (.vacant n) => simp
  | none => simp

/-- Everything `slab[key] = v` guarantees on success: the key now holds
`v`, every other index is untouched, the occupied count and occupancy at
every index are unchanged, and well-formedness is preserved. -/
theorem Slab.setOccupied_spec {α : Type} (s : Slab α) (key : Nat) (v : α)
    (s' : Slab α) (h : s.setOccupied key v = some s') :
    s'.entries[key]? = some (.occupied v) ∧
      (∀ j, j ≠ key → s'.entries[j]? = s.entries[j]?) ∧
      s'.len = s.len ∧ (∀ j, s'.contains j = s.contains j) ∧
      s'.next = s.next ∧ s'.capacity = s.capacity ∧
      (slabWF s → slabWF s') := by
  unfold Slab.setOccupied at h
  match hl : s.entries[key]? with
  | some (.occupied w) =>
      rw [hl] at h
      obtain rfl : s' = ⟨s.entries.set key (.occupied v), s.next, s.capacity⟩ := by
        cases h; rfl
      have hklt : key < s.entries.length := by
        have := List.getElem?_eq_some.mp hl
        exact this.choose
      have hget : s.entries[key] = Entry.occupied w :=
        (List.getElem?_eq_some.mp hl).choose_spec
      have hother : ∀ j, j ≠ key →
          (s.entries.set key (.occupied v))[j]? = s.entries[j]? :=
        fun j hj => List.getElem?_set_ne (fun he => hj he.symm)
      refine ⟨List.getElem?_set_self hklt, hother, ?_, ?_, rfl, rfl, ?_⟩
      · unfold Slab.len
        rw [List.countP_set _ _ _ _ hklt, hget]
        have h1 := Slab.one_le_countP_of_occupied hl
        simp [Entry.isVacant_occupied]
        omega
      · intro j
        by_cases hj : j = key
        · subst hj
          unfold Slab.contains
          rw [hl]
          simp [List.getElem?_set_self hklt]
        · unfold Slab.contains
          simp only
          rw [hother j hj]
      · rintro ⟨l, hchain, hcompl⟩
        have hknot : key ∉ l := by
          intro hm
          obtain ⟨m, hm'⟩ := hchain.mem_vacant key hm
          rw [hl] at hm'
          cases hm'
        refine ⟨l, FreeChain.set_not_mem hchain hknot, ?_⟩
        intro j n hj
        by_cases hje : j = key
        · subst hje
          rw [List.getElem?_set_self hklt] at hj
          cases hj
        · rw [List.getElem?_set_ne (fun he => hje he.symm)] at hj
          exact hcompl j n hj
  | some (.vacant n) => rw [hl] at h; cases h
  | none => rw [hl] at h; cases h

/-- The operation `remove` succeeds exactly on an occupied key. -/
theorem Slab.remove_isSome_iff {α : Type} (s : Slab α) (key : Nat) :
    (s.remove key).isSome ↔ s.contains key = true := by
  unfold Slab.remove Slab.contains
  match hl : s.entries[key]? with
  | some (.occupied w) => simp
  | some (.vacant n) => simp
  | none => simp

/-- Everything `remove` guarantees on success: the key is vacated, every
other index is untouched, the occupied count drops by one, and
well-formedness is preserved. -/
theorem Slab.remove_spec {α : Type} (s : Slab α) (key : Nat) (v : α)
    (s' : Slab α) (h : s.remove key = some (v, s')) :
    s'.contains key = false ∧
      (∀ j, j ≠ key → s'.entries[j]? = s.entries[j]?) ∧
      s'.len + 1 = s.len ∧ s'.capacity = s.capacity ∧
      (slabWF s → slabWF s') := by
  unfold Slab.remove at h
  match hl : s.entries[key]? with
  | some (.occupied w) =>
      rw [hl] at h
      obtain ⟨hv, rfl⟩ : v = w ∧
          s' = ⟨s.entries.set key (.vacant s.next), key, s.capacity⟩ := by
        cases h; exact ⟨rfl, rfl⟩
      have hklt : key < s.entries.length := (List.getElem?_eq_some.mp hl).choose
      have hget : s.entries[key] = Entry.occupied w :=
        (List.getElem?_eq_some.mp hl).choose_spec
      have hother : ∀ j, j ≠ key →
          (s.entries.set key (.vacant s.next))[j]? = s.entries[j]? :=
        fun j hj => List.getElem?_set_ne (fun he => hj he.symm)
      refine ⟨?_, hother, ?_, rfl, ?_⟩
      · unfold Slab.contains
        simp [List.getElem?_set_self hklt]
      · unfold Slab.len
        rw [List.countP_set _ _ _ _ hklt, hget]
        have h1 := Slab.one_le_countP_of_occupied hl
        simp [Entry.isVacant_occupied, Entry.isVacant_vacant]
        omega
      · rintro ⟨l, hchain, hcompl⟩
        have hknot : key ∉ l := by
          intro hm
          obtain ⟨m, hm'⟩ := hchain.mem_vacant key hm
          rw [hl] at hm'
          cases hm'
        refine ⟨key :: l, ?_, ?_⟩
        · exact FreeChain.cons (List.getElem?_set_self hklt) hknot
            (FreeChain.set_not_mem hchain hknot)
        · intro j n hj
          by_cases hje : j = key
          · subst hje; exact List.mem_cons_self _ _
          · rw [List.getElem?_set_ne (fun he => hje he.symm)] at hj
            exact List.mem_cons_of_mem _ (hcompl j n hj)
  | some (.vacant n) => rw [hl] at h; cases h
  | none => rw [hl] at h; cases h

theorem Slab.contains_congr {α : Type} {s s' : Slab α} {j : Nat}
    (h : s'.entries[j]? = s.entries[j]?) : s'.contains j = s.contains j := by
  unfold Slab.contains
  rw [h]

theorem Slab.contains_of_empty_entries {α : Type} {s : Slab α}
    (h : s.entries = []) (j : Nat) : s.contains j = false := by
  unfold Slab.contains
  rw [h]
  simp

theorem getElem?_append_singleton {β : Type} (l : List β) (a : β) (i : Nat) :
    (l ++ [a])[i]? = if i < l.length then l[i]?
      else if i = l.length then some a else none := by
  rw [List.getElem?_append]
  by_cases hlt : i < l.length
  · simp [hlt]
  · rw [if_neg hlt, if_neg hlt]
    by_cases heq : i = l.length
    · rw [if_pos heq, heq, Nat.sub_self]
      rfl
    · rw [if_neg heq, List.getElem?_eq_none]
      simp only [List.length_cons, List.length_nil]
      omega

/-! ## The reachable-state invariant

`sysInv` is the inductive invariant maintained by every operation of the
primitive, as long as the version counter has not wrapped around (fewer
than `2 ^ 64` broadcasts in the execution):

* the version is a `u64` value;
* the slab's free list is well formed;
* every live waiter's registration carries a version at most the current
  one, and one that equals the current version indexes a live entry;
* two distinct live waiters registered at the current version hold
  distinct slot indices. -/
def sysInv (sys : Sys) : Prop :=
  sys.shared.version < u64Mod ∧
  slabWF sys.shared.wakers ∧
  (∀ (i v idx : Nat), sys.waiters[i]? = some (.active (some ⟨v, idx⟩)) →
      v ≤ sys.shared.version ∧
      (v = sys.shared.version → sys.shared.wakers.contains idx = true)) ∧
  (∀ (i j v idx v' idx' : Nat), i ≠ j →
      sys.waiters[i]? = some (.active (some ⟨v, idx⟩)) →
      sys.waiters[j]? = some (.active (some ⟨v', idx'⟩)) →
      v = sys.shared.version → v' = sys.shared.version → idx ≠ idx')

theorem sysInv_init : sysInv initSys := by
  refine ⟨by norm_num [u64Mod, initSys, sharedNew], ?_, ?_, ?_⟩
  · exact slabWF_new
  · intro i v idx h
    simp [initSys] at h
  · intro i j v idx v' idx' hne h
    simp [initSys] at h

theorem stepOp_wait_eq (sys : Sys) :
    stepOp sys .wait = some (⟨sys.shared, sys.waiters ++ [.active none]⟩, []) := rfl

theorem stepOp_notify_eq (sys : Sys) :
    stepOp sys .notifyAll
      = some (⟨(notifyAll sys.shared).2, sys.waiters⟩, (notifyAll sys.shared).1) := rfl

theorem stepOp_register_some {sys : Sys} {i : Nat} {w : Waker} {sys' : Sys}
    {out : List Waker} (h : stepOp sys (.register i w) = some (sys', out)) :
    ∃ st st' sh', sys.waiters[i]? = some (.active st) ∧
      register st sys.shared w = some (st', sh') ∧
      sys' = ⟨sh', sys.waiters.set i (.active st')⟩ ∧ out = [] := by
  simp only [stepOp] at h
  rcases hwi : sys.waiters[i]? with _ | wst
  · rw [hwi] at h
    exact Option.noConfusion h
  · cases wst with
    | dropped =>
        rw [hwi] at h
        exact Option.noConfusion h
    | active st =>
        rw [hwi] at h
        have h2 : (match register st sys.shared w with
            | some (st', sh') =>
                some ((⟨sh', sys.waiters.set i (.active st')⟩ : Sys), ([] : List Waker))
            | none => none) = some (sys', out) := h
        rcases hr : register st sys.shared w with _ | ⟨st', sh'⟩
        · rw [hr] at h2
          exact Option.noConfusion h2
        · rw [hr] at h2
          cases h2
          exact ⟨st, st', sh', rfl, hr, rfl, rfl⟩

theorem stepOp_drop_some {sys : Sys} {i : Nat} {lockOk : Bool} {sys' : Sys}
    {out : List Waker} (h : stepOp sys (.drop i lockOk) = some (sys', out)) :
    ∃ st sh', sys.waiters[i]? = some (.active st) ∧
      dropWaiter st lockOk sys.shared = some sh' ∧
      sys' = ⟨sh', sys.waiters.set i .dropped⟩ ∧ out = [] := by
  simp only [stepOp] at h
  rcases hwi : sys.waiters[i]? with _ | wst
  · rw [hwi] at h
    exact Option.noConfusion h
  · cases wst with
    | dropped =>
        rw [hwi] at h
        exact Option.noConfusion h
    | active st =>
        rw [hwi] at h
        have h2 : (match dropWaiter st lockOk sys.shared with
            | some sh' =>
                some ((⟨sh', sys.waiters.set i .dropped⟩ : Sys), ([] : List Waker))
            | none => none) = some (sys', out) := h
        rcases hd : dropWaiter st lockOk sys.shared with _ | sh'
        · rw [hd] at h2
          exact Option.noConfusion h2
        · rw [hd] at h2
          cases h2
          exact ⟨st, sh', rfl, hd, rfl, rfl⟩

theorem register_none_cases {s : Shared} {w : Waker} {st' : Option State}
    {sh' : Shared} (h : register none s w = some (st', sh')) :
    ∃ key wk, s.wakers.insert w = some (key, wk) ∧
      st' = some ⟨s.version, key⟩ ∧ sh' = ⟨s.version, wk⟩ := by
  simp only [register] at h
  rcases hins : s.wakers.insert w with _ | ⟨key, wk⟩
  · rw [hins] at h
    exact Option.noConfusion h
  · rw [hins] at h
    cases h
    exact ⟨key, wk, rfl, rfl, rfl⟩

theorem register_some_cases {s : Shared} {w : Waker} {v idx : Nat}
    {st' : Option State} {sh' : Shared}
    (h : register (some ⟨v, idx⟩) s w = some (st', sh')) :
    ∃ wk, s.wakers.setOccupied idx w = some wk ∧
      st' = some ⟨v, idx⟩ ∧ sh' = ⟨s.version, wk⟩ := by
  simp only [register] at h
  rcases hset : s.wakers.setOccupied idx w with _ | wk
  · rw [hset] at h
    exact Option.noConfusion h
  · rw [hset] at h
    cases h
    exact ⟨wk, rfl, rfl, rfl⟩

theorem dropWaiter_some_true_cases {s : Shared} {v0 idx0 : Nat} {sh' : Shared}
    (h : dropWaiter (some ⟨v0, idx0⟩) true s = some sh') :
    (s.version ≠ v0 ∧ sh' = s) ∨
      (s.version = v0 ∧
        ∃ vv wk, s.wakers.remove idx0 = some (vv, wk) ∧ sh' = ⟨s.version, wk⟩) := by
  simp only [dropWaiter, if_pos rfl] at h
  by_cases hv : s.version = v0
  · rw [if_pos hv] at h
    rcases hrem : s.wakers.remove idx0 with _ | ⟨vv, wk⟩
    · rw [hrem] at h
      exact Option.noConfusion h
    · rw [hrem] at h
      cases h
      exact Or.inr ⟨hv, vv, wk, rfl, rfl⟩
  · rw [if_neg hv] at h
    cases h
    exact Or.inl ⟨hv, rfl⟩

theorem Slab.contains_of_entry {α : Type} {s : Slab α} {key : Nat} {v : α}
    (h : s.entries[key]? = some (.occupied v)) : s.contains key = true := by
  unfold Slab.contains
  rw [h]

theorem notifyAll_spec (s : Shared) :
    (notifyAll s).2.version = (s.version + 1) % u64Mod ∧
    (notifyAll s).2.wakers.entries = [] ∧ (notifyAll s).2.wakers.next = 0 ∧
    (notifyAll s).2.wakers.capacity
      = (if s.wakers.len * 4 < s.wakers.capacity then s.wakers.len
          else s.wakers.capacity) ∧
    (notifyAll s).1 = (s.wakers.drain).1 := by
  unfold notifyAll
  simp only [Slab.drain]
  by_cases hc : s.wakers.len * 4 < s.wakers.capacity
  · simp [hc, Slab.withCapacity]
  · simp [hc]

theorem getElem?_set_cases {β : Type} {l : List β} {k i : Nat} {x y : β}
    (h : (l.set k x)[i]? = some y) :
    (i = k ∧ y = x) ∨ (i ≠ k ∧ l[i]? = some y) := by
  rw [List.getElem?_set] at h
  by_cases hk : k = i
  · rw [if_pos hk] at h
    by_cases hlen : k < l.length
    · rw [if_pos hlen] at h
      cases h
      exact Or.inl ⟨hk.symm, rfl⟩
    · rw [if_neg hlen] at h
      exact Option.noConfusion h
  · rw [if_neg hk] at h
    exact Or.inr ⟨fun he => hk he.symm, h⟩

theorem wait_reg_old {ws : List WStatus} {i : Nat} {r : Option State}
    (hi : (ws ++ [WStatus.active none])[i]? = some (.active r)) (hr : r.isSome) :
    ws[i]? = some (.active r) := by
  rw [getElem?_append_singleton] at hi
  by_cases hlt : i < ws.length
  · rwa [if_pos hlt] at hi
  · rw [if_neg hlt] at hi
    by_cases heq : i = ws.length
    · rw [if_pos heq] at hi
      cases hi
      cases hr
    · rw [if_neg heq] at hi
      exact Option.noConfusion hi

/-- One step preserves the invariant, and the version advances by one on
`notifyAll` (without wrapping, by the `hver` bound) and is unchanged
otherwise. -/
theorem stepOp_inv {sys : Sys} {op : Op} {sys' : Sys} {out : List Waker}
    (h : stepOp sys op = some (sys', out)) (hinv : sysInv sys)
    (hver : op.isNotifyAll = true → sys.shared.version + 1 < u64Mod) :
    sysInv sys' ∧
      sys'.shared.version
        = sys.shared.version + (if op.isNotifyAll = true then 1 else 0) := by
  obtain ⟨hvlt, hwf, hreg, hdist⟩ := hinv
  cases op with
  | wait =>
      rw [stepOp_wait_eq] at h
      cases h
      refine ⟨⟨hvlt, hwf, ?_, ?_⟩, by simp [Op.isNotifyAll]⟩
      · intro i v idx hi
        exact hreg i v idx (wait_reg_old hi rfl)
      · intro i j v idx v' idx' hij hi hj hv hv'
        exact hdist i j v idx v' idx' hij (wait_reg_old hi rfl)
          (wait_reg_old hj rfl) hv hv'
  | register i w =>
      obtain ⟨st, st', sh', hwi, hr, rfl, rfl⟩ := stepOp_register_some h
      cases st with
      | none =>
          obtain ⟨key, wk, hins, rfl, rfl⟩ := register_none_cases hr
          obtain ⟨hkey, hnotc, hckey, hother, hlen, hwf'⟩ :=
            Slab.insert_spec _ _ _ _ ⟨hwf.choose, hwf.choose_spec⟩ hins
          refine ⟨⟨hvlt, hwf', ?_, ?_⟩, by simp [Op.isNotifyAll]⟩
          · intro j v idx hj
            rcases getElem?_set_cases hj with ⟨rfl, hyx⟩ | ⟨hne, hj'⟩
            · cases hyx
              exact ⟨Nat.le_refl _, fun _ => Slab.contains_of_entry hckey⟩
            · obtain ⟨hle, hcur⟩ := hreg j v idx hj'
              refine ⟨hle, fun hv => ?_⟩
              have hcold := hcur hv
              have hik : idx ≠ key := by
                intro he
                rw [he, hnotc] at hcold
                cases hcold
              rw [Slab.contains_congr (hother idx hik)]
              exact hcold
          · intro j k v idx v' idx' hjk hj hk hv hv'
            rcases getElem?_set_cases hj with ⟨rfl, hyx⟩ | ⟨hnej, hj'⟩
            · cases hyx
              rcases getElem?_set_cases hk with ⟨rfl, _⟩ | ⟨hnek, hk'⟩
              · exact absurd rfl hjk
              · obtain ⟨_, hcur⟩ := hreg k v' idx' hk'
                have hcold := hcur hv'
                intro he
                rw [← he, hnotc] at hcold
                cases hcold
            · rcases getElem?_set_cases hk with ⟨rfl, hyx⟩ | ⟨hnek, hk'⟩
              · cases hyx
                obtain ⟨_, hcur⟩ := hreg j v idx hj'
                have hcold := hcur hv
                intro he
                rw [he, hnotc] at hcold
                cases hcold
              · exact hdist j k v idx v' idx' hjk hj' hk' hv hv'
      | some s0 =>
          obtain ⟨v0, idx0⟩ := s0
          obtain ⟨wk, hset, rfl, rfl⟩ := register_some_cases hr
          obtain ⟨hkset, hother, hlen, hcont, hnext, hcap, hwfp⟩ :=
            Slab.setOccupied_spec _ _ _ _ hset
          have hregs : ∀ (j : Nat) (r : Option State),
              (sys.waiters.set i (WStatus.active (some ⟨v0, idx0⟩)))[j]?
                  = some (.active r) →
              sys.waiters[j]? = some (.active r) := by
            intro j r hj
            rcases getElem?_set_cases hj with ⟨rfl, hyx⟩ | ⟨hne, hj'⟩
            · cases hyx
              exact hwi
            · exact hj'
          refine ⟨⟨hvlt, hwfp hwf, ?_, ?_⟩, by simp [Op.isNotifyAll]⟩
          · intro j v idx hj
            obtain ⟨hle, hcur⟩ := hreg j v idx (hregs j (some ⟨v, idx⟩) hj)
            exact ⟨hle, fun hv => by rw [hcont idx]; exact hcur hv⟩
          · intro j k v idx v' idx' hjk hj hk hv hv'
            exact hdist j k v idx v' idx' hjk (hregs j _ hj) (hregs k _ hk) hv hv'
  | notifyAll =>
      rw [stepOp_notify_eq] at h
      cases h
      have hv1 : sys.shared.version + 1 < u64Mod := hver rfl
      obtain ⟨hver2, hent, hnext, hcap, hdr⟩ := notifyAll_spec sys.shared
      have hvershape : (notifyAll sys.shared).2.version = sys.shared.version + 1 := by
        rw [hver2, Nat.mod_eq_of_lt hv1]
      refine ⟨⟨?_, ?_, ?_, ?_⟩, by simp [Op.isNotifyAll, hvershape]⟩
      · rw [hvershape]
        exact hv1
      · exact ⟨[], by rw [hent, hnext]; exact FreeChain.nil [],
          by intro j n hj; rw [hent] at hj; simp at hj⟩
      · intro j v idx hj
        obtain ⟨hle, _⟩ := hreg j v idx hj
        refine ⟨by rw [hvershape]; omega, fun hv => ?_⟩
        rw [hvershape] at hv
        omega
      · intro j k v idx v' idx' hjk hj hk hv hv'
        obtain ⟨hle, _⟩ := hreg j v idx hj
        rw [hvershape] at hv
        omega
  | drop i lockOk =>
      obtain ⟨st, sh', hwi, hd, rfl, rfl⟩ := stepOp_drop_some h
      have hregs : ∀ (j : Nat) (r : Option State),
          (sys.waiters.set i WStatus.dropped)[j]? = some (.active r) →
          sys.waiters[j]? = some (.active r) ∧ j ≠ i := by
        intro j r hj
        rcases getElem?_set_cases hj with ⟨rfl, hyx⟩ | ⟨hne, hj'⟩
        · cases hyx
        · exact ⟨hj', hne⟩
      have hsame : sh' = sys.shared →
          sysInv ⟨sh', sys.waiters.set i WStatus.dropped⟩ ∧
            sh'.version = sys.shared.version
              + (if Op.isNotifyAll (.drop i lockOk) = true then 1 else 0) := by
        rintro rfl
        refine ⟨⟨hvlt, hwf, ?_, ?_⟩, by simp [Op.isNotifyAll]⟩
        · intro j v idx hj
          exact hreg j v idx (hregs j _ hj).1
        · intro j k v idx v' idx' hjk hj hk hv hv'
          exact hdist j k v idx v' idx' hjk (hregs j _ hj).1 (hregs k _ hk).1 hv hv'
      cases st with
      | none =>
          obtain rfl : sys.shared = sh' := by
            simpa [dropWaiter] using hd
          exact hsame rfl
      | some s0 =>
          obtain ⟨v0, idx0⟩ := s0
          cases lockOk with
          | false =>
              obtain rfl : sys.shared = sh' := by
                simpa [dropWaiter] using hd
              exact hsame rfl
          | true =>
              rcases dropWaiter_some_true_cases hd with ⟨_, rfl⟩ | ⟨hveq, vv, wk, hrem, rfl⟩
              · exact hsame rfl
              · obtain ⟨hncont, hother, hlen, hcap, hwfp⟩ :=
                  Slab.remove_spec _ _ _ _ hrem
                refine ⟨⟨hvlt, hwfp hwf, ?_, ?_⟩, by simp [Op.isNotifyAll]⟩
                · intro j v idx hj
                  obtain ⟨hj', hne⟩ := hregs j _ hj
                  obtain ⟨hle, hcur⟩ := hreg j v idx hj'
                  refine ⟨hle, fun hv => ?_⟩
                  have hcold := hcur hv
                  have hii : idx ≠ idx0 :=
                    hdist j i v idx v0 idx0 hne hj' hwi hv hveq.symm
                  rw [Slab.contains_congr (hother idx hii)]
                  exact hcold
                · intro j k v idx v' idx' hjk hj hk hv hv'
                  exact hdist j k v idx v' idx' hjk (hregs j _ hj).1
                    (hregs k _ hk).1 hv hv'

theorem countNotify_cons (op : Op) (ops : List Op) :
    countNotify (op :: ops)
      = (if op.isNotifyAll = true then 1 else 0) + countNotify ops := by
  by_cases hop : op.isNotifyAll = true
  · simp [countNotify, List.countP_cons, hop, Nat.add_comm]
  · simp [countNotify, List.countP_cons, hop]

/-- Running a trace whose broadcast count cannot wrap the version counter
preserves the invariant, and the version advances by exactly the number
of broadcasts. -/
theorem runFrom_inv {ops : List Op} {sys sys' : Sys}
    (h : runFrom sys ops = some sys') (hinv : sysInv sys)
    (hbound : sys.shared.version + countNotify ops < u64Mod) :
    sysInv sys' ∧ sys'.shared.version = sys.shared.version + countNotify ops := by
  induction ops generalizing sys with
  | nil =>
      cases h
      exact ⟨hinv, by simp [countNotify]⟩
  | cons op ops ih =>
      simp only [runFrom] at h
      rcases hst : stepOp sys op with _ | p
      · rw [hst] at h
        exact Option.noConfusion h
      · obtain ⟨sys₁, out⟩ := p
        rw [hst] at h
        have h2 : runFrom sys₁ ops = some sys' := h
        have hbound' : sys.shared.version
            + ((if op.isNotifyAll = true then 1 else 0) + countNotify ops)
            < u64Mod := by
          rw [← countNotify_cons]
          exact hbound
        have hver : op.isNotifyAll = true → sys.shared.version + 1 < u64Mod := by
          intro hop
          rw [if_pos hop] at hbound'
          omega
        obtain ⟨hinv₁, hv₁⟩ := stepOp_inv hst hinv hver
        have hbound₁ : sys₁.shared.version + countNotify ops < u64Mod := by
          omega
        obtain ⟨hinv', hv'⟩ := ih h2 hinv₁ hbound₁
        refine ⟨hinv', ?_⟩
        rw [hv', hv₁, countNotify_cons]
        omega

/-- Every state reached by a trace with fewer than `2 ^ 64` broadcasts
satisfies the invariant, with the version equal to the broadcast count. -/
theorem runOps_inv {ops : List Op} {sys : Sys} (h : runOps ops = some sys)
    (hbound : countNotify ops < u64Mod) :
    sysInv sys ∧ sys.shared.version = countNotify ops := by
  have hz : initSys.shared.version = 0 := rfl
  have := runFrom_inv h sysInv_init (by rw [hz]; omega)
  rwa [hz, Nat.zero_add] at this

/-! ## Drain arithmetic -/

/-- The occupied-value extractor used by `Slab.drain`. -/
def occValue {α : Type} : Entry α → Option α
  | .occupied v => some v
  | .vacant _ => none

theorem drain_fst_eq {α : Type} (s : Slab α) :
    (s.drain).1 = s.entries.filterMap occValue := by
  unfold Slab.drain occValue
  rfl

theorem filterMap_occValue_length {α : Type} (es : List (Entry α)) :
    (es.filterMap occValue).length = es.countP (fun e => !e.isVacant) := by
  induction es with
  | nil => rfl
  | cons e es ih =>
      cases e with
      | occupied v =>
          simp [occValue, List.countP_cons, Entry.isVacant_occupied, ih]
      | vacant n =>
          simp [occValue, List.countP_cons, Entry.isVacant_vacant, ih]

theorem filterMap_occValue_count (es : List (Entry Nat)) (w : Nat) :
    (es.filterMap occValue).count w
      = es.countP (fun e => e == Entry.occupied w) := by
  induction es with
  | nil => rfl
  | cons e es ih =>
      cases e with
      | occupied v =>
          by_cases hv : v = w
          · subst hv
            simp [occValue, List.count_cons, List.countP_cons, ih]
          · simp [occValue, List.count_cons, List.countP_cons, ih, hv]
      | vacant n =>
          simp [occValue, List.count_cons, List.countP_cons, ih]

theorem drain_fst_length {α : Type} (s : Slab α) :
    (s.drain).1.length = s.len := by
  rw [drain_fst_eq, filterMap_occValue_length]
  rfl

/-- A slab with no occupied entry drains to the empty list. -/
theorem Slab.eq_of_fields {α : Type} {s : Slab α} {es : List (Entry α)}
    {nx cp : Nat} (h1 : s.entries = es) (h2 : s.next = nx)
    (h3 : s.capacity = cp) : s = ⟨es, nx, cp⟩ := by
  cases s
  cases h1
  cases h2
  cases h3
  rfl

theorem drain_fst_eq_nil {α : Type} {s : Slab α} (h : s.len = 0) :
    (s.drain).1 = [] := by
  have := drain_fst_length s
  rw [h] at this
  exact List.length_eq_zero.mp this

/-! ## Claim C6 -/

/-- Claim C6: after every `notify_all` the version equals its previous
value plus one modulo `2 ^ 64` (wrapping on overflow), and no other
operation (`wait`, `register`, disposal) ever changes the version.
(`NotifyOwned::new` initialises the version to 0 — see `sharedNew` — and
`NotifyOwned::clone` shares the `Arc` without touching the shared state,
so neither has a transition here.) -/
theorem c6_version_changes_only_on_broadcast {sys sys' : Sys} {op : Op}
    {out : List Waker} (h : stepOp sys op = some (sys', out)) :
    sys'.shared.version
      = if op.isNotifyAll = true
        then (sys.shared.version + 1) % u64Mod
        else sys.shared.version := by
  cases op with
  | wait =>
      rw [stepOp_wait_eq] at h
      cases h
      rfl
  | register i w =>
      obtain ⟨st, st', sh', hwi, hr, rfl, rfl⟩ := stepOp_register_some h
      cases st with
      | none =>
          obtain ⟨key, wk, hins, rfl, rfl⟩ := register_none_cases hr
          rfl
      | some s0 =>
          obtain ⟨v0, idx0⟩ := s0
          obtain ⟨wk, hset, rfl, rfl⟩ := register_some_cases hr
          rfl
  | notifyAll =>
      rw [stepOp_notify_eq] at h
      cases h
      simp [Op.isNotifyAll, (notifyAll_spec sys.shared).1]
  | drop i lockOk =>
      obtain ⟨st, sh', hwi, hd, rfl, rfl⟩ := stepOp_drop_some h
      cases st with
      | none =>
          obtain rfl : sys.shared = sh' := by simpa [dropWaiter] using hd
          rfl
      | some s0 =>
          obtain ⟨v0, idx0⟩ := s0
          cases lockOk with
          | false =>
              obtain rfl : sys.shared = sh' := by simpa [dropWaiter] using hd
              rfl
          | true =>
              rcases dropWaiter_some_true_cases hd with ⟨_, rfl⟩ | ⟨_, vv, wk, _, rfl⟩
              · rfl
              · rfl

/-- Witness for C6 at a concrete step: one broadcast from the initial
system advances the version from 0 to 1. -/
theorem c6_witness :
    (⟨⟨1, ⟨[], 0, 0⟩⟩, ([] : List WStatus)⟩ : Sys).shared.version
      = if (Op.notifyAll).isNotifyAll = true
        then (initSys.shared.version + 1) % u64Mod
        else initSys.shared.version :=
  @c6_version_changes_only_on_broadcast initSys ⟨⟨1, ⟨[], 0, 0⟩⟩, []⟩
    .notifyAll [] (by decide)

/-! ## Claim C5 -/

/-- Claim C5: with `k` live registered waiters (`k` occupied slots), one
`notify_all` invokes exactly `k` callbacks — each stored callback exactly
once per slot holding it — and removes every entry, so the live count is
0 afterwards, and a second broadcast with no re-registration invokes
nothing. -/
theorem c5_broadcast_invokes_each_slot_once (s : Shared) :
    (notifyAll s).1.length = s.wakers.len ∧
    (∀ w : Waker, (notifyAll s).1.count w
        = s.wakers.entries.countP (fun e => e == Entry.occupied w)) ∧
    (notifyAll s).2.wakers.len = 0 ∧
    (notifyAll (notifyAll s).2).1 = [] := by
  obtain ⟨hver2, hent, hnext, hcap, hdr⟩ := notifyAll_spec s
  obtain ⟨hver2', hent', _, _, hdr'⟩ := notifyAll_spec (notifyAll s).2
  have hlen0 : (notifyAll s).2.wakers.len = 0 := by
    unfold Slab.len
    rw [hent]
    rfl
  refine ⟨?_, ?_, hlen0, ?_⟩
  · rw [hdr, drain_fst_length]
  · intro w
    rw [hdr, drain_fst_eq, filterMap_occValue_count]
  · rw [hdr', drain_fst_eq_nil hlen0]

/-! ## Claim C8 -/

/-- Claim C8: letting `n` be the number of drained entries and `c` the
table's capacity, `notify_all` replaces the table by a fresh one of
capacity exactly `n` if and only if `n * 4 < c`, and otherwise keeps the
drained table with its capacity; either way the table is empty
afterwards. -/
theorem c8_shrink_policy (s : Shared) :
    (notifyAll s).2.wakers
      = (if s.wakers.len * 4 < s.wakers.capacity
          then Slab.withCapacity s.wakers.len
          else (s.wakers.drain).2) ∧
    (notifyAll s).2.wakers.capacity
      = (if s.wakers.len * 4 < s.wakers.capacity then s.wakers.len
          else s.wakers.capacity) ∧
    (notifyAll s).2.wakers.len = 0 := by
  refine ⟨?_, (notifyAll_spec s).2.2.2.1, ?_⟩
  · unfold notifyAll
    simp only [Slab.drain]
  · unfold Slab.len
    rw [(notifyAll_spec s).2.1]
    rfl

/-! ## Claim C10 -/

theorem notifyAll_empty_zero (v : Nat) :
    notifyAll ⟨v, ⟨[], 0, 0⟩⟩ = ([], ⟨(v + 1) % u64Mod, ⟨[], 0, 0⟩⟩) := rfl

/-- Claim C10: a broadcast with no registered waiters still advances the
version by one, invokes no callbacks, and leaves the table at capacity 0
(reallocating whenever the capacity was positive, since `0 * 4 < c`);
repeated broadcasts keep the table at capacity 0. -/
theorem c10_broadcast_with_no_waiters (s : Shared) (h : s.wakers.len = 0) :
    (notifyAll s).1 = [] ∧
    (notifyAll s).2.version = (s.version + 1) % u64Mod ∧
    (notifyAll s).2.wakers.capacity = 0 ∧
    (notifyAll s).2.wakers.len = 0 ∧
    (∀ k, (iterNotify (k + 1) s).wakers = ⟨[], 0, 0⟩) := by
  obtain ⟨hver2, hent, hnext, hcap, hdr⟩ := notifyAll_spec s
  have hcap0 : (notifyAll s).2.wakers.capacity = 0 := by
    rw [hcap, h]
    by_cases hc : (0 : Nat) * 4 < s.wakers.capacity
    · rw [if_pos hc]
    · rw [if_neg hc]
      omega
  have hwak : (notifyAll s).2.wakers = ⟨[], 0, 0⟩ :=
    Slab.eq_of_fields hent hnext hcap0
  refine ⟨?_, hver2, hcap0, ?_, ?_⟩
  · rw [hdr, drain_fst_eq_nil h]
  · unfold Slab.len
    rw [hent]
    rfl
  · intro k
    induction k with
    | zero => exact hwak
    | succ k ih =>
        have hstep : iterNotify (k + 1 + 1) s
            = iterNotify (k + 1) (notifyAll s).2 := rfl
        have hsw : (notifyAll s).2 = ⟨(notifyAll s).2.version, ⟨[], 0, 0⟩⟩ := by
          rw [← hwak]
        have hiter : ∀ (m : Nat) (v : Nat),
            iterNotify m ⟨v, ⟨[], 0, 0⟩⟩
              = ⟨(iterNotify m ⟨v, ⟨[], 0, 0⟩⟩).version, ⟨[], 0, 0⟩⟩ := by
          intro m
          induction m with
          | zero => intro v; rfl
          | succ m ihm =>
              intro v
              have : iterNotify (m + 1) ⟨v, ⟨[], 0, 0⟩⟩
                  = iterNotify m ⟨(v + 1) % u64Mod, ⟨[], 0, 0⟩⟩ := by
                rw [show iterNotify (m + 1) ⟨v, ⟨[], 0, 0⟩⟩
                    = iterNotify m (notifyAll ⟨v, ⟨[], 0, 0⟩⟩).2 from rfl,
                  notifyAll_empty_zero]
              rw [this, ihm]
        rw [hstep, hsw, hiter]

/-! ## Claim C2 -/

/-- Counterexample to claim C2: in the reachable state with one
registered waiter, the wake call occurs before the lock release in the
event trace of `notify_all` — the callback is invoked while the lock is
held, not after it is released. -/
theorem c2_counterexample :
    runOps [.wait, .register 0 5]
        = some ⟨⟨0, ⟨[.occupied 5], 1, 4⟩⟩, [.active (some ⟨0, 0⟩)]⟩ ∧
    invokesOnlyAfterRelease
      (notifyAllEvents ⟨0, ⟨[.occupied 5], 1, 4⟩⟩) = false := by decide

/-- Claim C2 as amended: during `notify_all` every removed callback is
invoked inside the critical section — strictly after the lock is
acquired and strictly before it is released. -/
theorem c2_amended_wakes_inside_critical_section (s : Shared) (k : Nat)
    (w : Waker) (hk : (notifyAllEvents s)[k]? = some (.wake w)) :
    (notifyAllEvents s)[0]? = some .acquired ∧ 0 < k ∧
      ∃ m, k < m ∧ (notifyAllEvents s)[m]? = some .released := by
  have hev : notifyAllEvents s
      = .acquired :: ((s.wakers.drain).1.map .wake ++ [.released]) := rfl
  cases k with
  | zero =>
      rw [hev] at hk
      simp at hk
  | succ j =>
      rw [hev, List.getElem?_cons_succ] at hk
      have hjlt : j < ((s.wakers.drain).1.map LockEvent.wake).length := by
        by_contra hge
        rw [List.getElem?_append_right (Nat.le_of_not_lt hge)] at hk
        rcases Nat.eq_or_lt_of_le (Nat.le_of_not_lt hge) with he | hlt2
        · rw [← he, Nat.sub_self, List.getElem?_cons_zero] at hk
          cases hk
        · rw [List.getElem?_eq_none] at hk
          · cases hk
          · simp only [List.length_cons, List.length_nil]
            omega
      refine ⟨by rw [hev]; exact List.getElem?_cons_zero, Nat.succ_pos j,
        ((s.wakers.drain).1.map LockEvent.wake).length + 1, by omega, ?_⟩
      rw [hev, List.getElem?_cons_succ,
        List.getElem?_append_right (Nat.le_refl _), Nat.sub_self]
      exact List.getElem?_cons_zero

/-- Witness for the amended C2 at a concrete state: the single wake event
sits at position 1, between `acquired` at 0 and `released` later. -/
theorem c2_amended_witness :
    (notifyAllEvents ⟨0, ⟨[.occupied 5], 1, 4⟩⟩)[0]? = some .acquired ∧
      0 < 1 ∧
      ∃ m, 1 < m ∧
        (notifyAllEvents ⟨0, ⟨[.occupied 5], 1, 4⟩⟩)[m]? = some .released :=
  c2_amended_wakes_inside_critical_section ⟨0, ⟨[.occupied 5], 1, 4⟩⟩ 1 5
    (by decide)

/-! ## Claim C1 -/

/-- Counterexample to claim C1: in the reachable state where waiter 0
holds the stale pair `(version 0, slot 0)` while the current version is
1 and the table is empty, `register` panics (`none`) instead of behaving
as if the waiter were unregistered — a fresh registration from the same
shared state would succeed and insert a fresh slot. -/
theorem c1_counterexample :
    runOps [.wait, .register 0 5, .notifyAll]
        = some ⟨⟨1, ⟨[], 0, 4⟩⟩, [.active (some ⟨0, 0⟩)]⟩ ∧
    register (some ⟨0, 0⟩) ⟨1, ⟨[], 0, 4⟩⟩ 7 = none ∧
    register none ⟨1, ⟨[], 0, 4⟩⟩ 7
        = some (some ⟨1, 0⟩, ⟨1, ⟨[Entry.occupied 7], 1, 4⟩⟩) := by decide

/-- Claim C1 as amended: for a Waiter whose stored version differs from
the current version, `register` never inserts a fresh slot: it keeps the
stored `(slot_id, version)` pair and writes the callback through the
stale slot index — panicking when that slot is vacant, and otherwise
overwriting the entry in place (leaving the slot count unchanged). -/
theorem c1_amended_stale_register_writes_old_slot (v idx : Nat) (s : Shared)
    (w : Waker) (_hstale : v ≠ s.version) :
    (s.wakers.contains idx = false → register (some ⟨v, idx⟩) s w = none) ∧
    (s.wakers.contains idx = true →
      ∃ wk, register (some ⟨v, idx⟩) s w
          = some (some ⟨v, idx⟩, ⟨s.version, wk⟩) ∧
        wk.len = s.wakers.len ∧ wk.entries[idx]? = some (.occupied w)) := by
  constructor
  · intro hc
    simp only [register]
    rcases hset : s.wakers.setOccupied idx w with _ | wk
    · rfl
    · exfalso
      have := (Slab.setOccupied_isSome_iff s.wakers idx w).mp (by rw [hset]; rfl)
      rw [this] at hc
      cases hc
  · intro hc
    obtain ⟨wk, hset⟩ := Option.isSome_iff_exists.mp
      ((Slab.setOccupied_isSome_iff s.wakers idx w).mpr hc)
    obtain ⟨hkey, hother, hlen, hcont, hnext, hcap, hwfp⟩ :=
      Slab.setOccupied_spec _ _ _ _ hset
    refine ⟨wk, ?_, hlen, hkey⟩
    simp only [register]
    rw [hset]

/-- Witness for the amended C1 at a concrete stale state (stored version
0, current version 1, slot 0 vacant). -/
theorem c1_amended_witness :
    ((⟨1, ⟨[], 0, 4⟩⟩ : Shared).wakers.contains 0 = false →
        register (some ⟨0, 0⟩) ⟨1, ⟨[], 0, 4⟩⟩ 9 = none) ∧
    ((⟨1, ⟨[], 0, 4⟩⟩ : Shared).wakers.contains 0 = true →
      ∃ wk, register (some ⟨0, 0⟩) ⟨1, ⟨[], 0, 4⟩⟩ 9
          = some (some ⟨0, 0⟩, ⟨1, wk⟩) ∧
        wk.len = (⟨1, ⟨[], 0, 4⟩⟩ : Shared).wakers.len ∧
        wk.entries[0]? = some (.occupied 9)) :=
  c1_amended_stale_register_writes_old_slot 0 0 ⟨1, ⟨[], 0, 4⟩⟩ 9 (by decide)

/-! ## Claim C3 -/

theorem stepOp_register_eq {sys : Sys} {i : Nat} {st : Option State}
    (hw : sys.waiters[i]? = some (.active st)) (w : Waker) :
    stepOp sys (.register i w)
      = match register st sys.shared w with
        | some (st', sh') => some (⟨sh', sys.waiters.set i (.active st')⟩, [])
        | none => none := by
  simp only [stepOp]
  rw [hw]

/-- Counterexample to claim C3: `register` does not complete normally for
every waiter state — at the reachable stale state below (waiter 0
registered at version 0, current version 1 after a broadcast), the
registering step panics. -/
theorem c3_counterexample :
    runOps [.wait, .register 0 11, .notifyAll]
        = some ⟨⟨1, ⟨[], 0, 4⟩⟩, [.active (some ⟨0, 0⟩)]⟩ ∧
    stepOp ⟨⟨1, ⟨[], 0, 4⟩⟩, [.active (some ⟨0, 0⟩)]⟩ (.register 0 12)
        = none := by decide

/-- Claim C3 as amended: in every reachable state of an execution with
fewer than `2 ^ 64` broadcasts, `register` completes normally whenever
the Waiter is unregistered or registered with the current version, and
it only mutates the slot table and the Waiter's own bookkeeping: the
version and all other waiters are untouched, and the slot count grows by
one exactly on a first registration. -/
theorem c3_amended_register_never_fails_unless_stale {ops : List Op} {S : Sys}
    (i : Nat) (w : Waker) (st : Option State)
    (hrun : runOps ops = some S) (hb : countNotify ops < u64Mod)
    (hw : S.waiters[i]? = some (.active st))
    (hok : st = none ∨ ∃ idx, st = some ⟨S.shared.version, idx⟩) :
    ∃ S', stepOp S (.register i w) = some (S', []) ∧
      S'.shared.version = S.shared.version ∧
      (∀ j, j ≠ i → S'.waiters[j]? = S.waiters[j]?) ∧
      S'.shared.wakers.len
        = S.shared.wakers.len + (if st = none then 1 else 0) := by
  obtain ⟨⟨hvlt, hwf, hreg, hdist⟩, _⟩ := runOps_inv hrun hb
  rcases hok with rfl | ⟨idx, rfl⟩
  · obtain ⟨p, hins⟩ := Option.isSome_iff_exists.mp (Slab.insert_isSome _ hwf w)
    obtain ⟨key, wk⟩ := p
    have hr : register none S.shared w
        = some (some ⟨S.shared.version, key⟩, ⟨S.shared.version, wk⟩) := by
      simp only [register]
      rw [hins]
    refine ⟨⟨⟨S.shared.version, wk⟩,
        S.waiters.set i (.active (some ⟨S.shared.version, key⟩))⟩, ?_, rfl, ?_, ?_⟩
    · rw [stepOp_register_eq hw, hr]
    · intro j hj
      exact List.getElem?_set_ne (fun he => hj he.symm)
    · obtain ⟨_, _, _, _, hlen, _⟩ := Slab.insert_spec _ _ _ _ hwf hins
      simpa using hlen
  · have hc : S.shared.wakers.contains idx = true :=
      (hreg i S.shared.version idx hw).2 rfl
    obtain ⟨wk, hset⟩ := Option.isSome_iff_exists.mp
      ((Slab.setOccupied_isSome_iff _ idx w).mpr hc)
    have hr : register (some ⟨S.shared.version, idx⟩) S.shared w
        = some (some ⟨S.shared.version, idx⟩, ⟨S.shared.version, wk⟩) := by
      simp only [register]
      rw [hset]
    obtain ⟨hkey, hother, hlen, hcont, hnext, hcap, hwfp⟩ :=
      Slab.setOccupied_spec _ _ _ _ hset
    refine ⟨⟨⟨S.shared.version, wk⟩,
        S.waiters.set i (.active (some ⟨S.shared.version, idx⟩))⟩, ?_, rfl, ?_, ?_⟩
    · rw [stepOp_register_eq hw, hr]
    · intro j hj
      exact List.getElem?_set_ne (fun he => hj he.symm)
    · simpa using hlen

/-- Witness for the amended C3: a first registration on a fresh waiter
succeeds and adds one slot. -/
theorem c3_amended_witness :
    ∃ S', stepOp ⟨sharedNew, [.active none]⟩ (.register 0 3) = some (S', []) ∧
      S'.shared.version = (⟨sharedNew, [.active none]⟩ : Sys).shared.version ∧
      (∀ j, j ≠ 0 →
        S'.waiters[j]? = (⟨sharedNew, [.active none]⟩ : Sys).waiters[j]?) ∧
      S'.shared.wakers.len
        = (⟨sharedNew, [.active none]⟩ : Sys).shared.wakers.len
          + (if (none : Option State) = none then 1 else 0) :=
  @c3_amended_register_never_fails_unless_stale [.wait]
    ⟨sharedNew, [.active none]⟩ 0 3 none
    (by decide) (by decide) (by decide) (Or.inl rfl)

/-! ## Claim C4 -/

/-- The reachable state refuting claim C4: waiter 0 is stale (registered
at version 0, current version 1) yet its cached slot 0 indexes a live
entry, because waiter 1 re-used index 0 after the broadcast drained the
table. -/
def c4Sys : Sys :=
  ⟨⟨1, ⟨[.occupied 22], 1, 4⟩⟩, [.active (some ⟨0, 0⟩), .active (some ⟨1, 0⟩)]⟩

/-- Counterexample to claim C4: in the reachable state `c4Sys`, waiter
0's stored slot 0 indexes a live entry although its stored version 0
differs from the current version 1 — the claimed "iff" fails in the
only-if direction because slot indices are re-used. -/
theorem c4_counterexample :
    runOps [.wait, .register 0 21, .notifyAll, .wait, .register 1 22]
        = some c4Sys ∧
    c4Sys.waiters[0]? = some (.active (some ⟨0, 0⟩)) ∧
    ¬ (c4Sys.shared.wakers.contains 0 = true
        ↔ 0 = c4Sys.shared.version) := by decide

/-- Claim C4 as amended: in every reachable state of an execution with
fewer than `2 ^ 64` broadcasts, a Waiter's stored slot index, when a
registration is present, indexes a live entry whenever the stored
version equals the current version; the converse direction of the
original claim is dropped (see the counterexample). -/
theorem c4_amended_current_version_implies_live {ops : List Op} {S : Sys}
    (hrun : runOps ops = some S) (hb : countNotify ops < u64Mod)
    (i v idx : Nat) (hw : S.waiters[i]? = some (.active (some ⟨v, idx⟩)))
    (hv : v = S.shared.version) :
    S.shared.wakers.contains idx = true := by
  obtain ⟨⟨_, _, hreg, _⟩, _⟩ := runOps_inv hrun hb
  exact (hreg i v idx hw).2 hv

/-- Witness for the amended C4: a freshly registered waiter's slot is
live while its version is current. -/
theorem c4_amended_witness :
    (⟨⟨0, ⟨[.occupied 5], 1, 4⟩⟩, [.active (some ⟨0, 0⟩)]⟩
        : Sys).shared.wakers.contains 0 = true :=
  @c4_amended_current_version_implies_live [.wait, .register 0 5]
    ⟨⟨0, ⟨[.occupied 5], 1, 4⟩⟩, [.active (some ⟨0, 0⟩)]⟩
    (by decide) (by decide) 0 0 0 (by decide) (by decide)

/-! ## Claim C7 -/

theorem stepOp_drop_eq {sys : Sys} {i : Nat} {st : Option State}
    (hw : sys.waiters[i]? = some (.active st)) (lockOk : Bool) :
    stepOp sys (.drop i lockOk)
      = match dropWaiter st lockOk sys.shared with
        | some sh' => some (⟨sh', sys.waiters.set i .dropped⟩, [])
        | none => none := by
  simp only [stepOp]
  rw [hw]

theorem runFrom_append (ops₁ ops₂ : List Op) (sys : Sys) :
    runFrom sys (ops₁ ++ ops₂)
      = (runFrom sys ops₁).bind (fun s => runFrom s ops₂) := by
  induction ops₁ generalizing sys with
  | nil => rfl
  | cons op ops ih =>
      simp only [List.cons_append, runFrom]
      rcases hst : stepOp sys op with _ | p
      · rfl
      · obtain ⟨s1, o⟩ := p
        exact ih s1

theorem iterNotify_zeroCap {k v : Nat} (hv : v < u64Mod) :
    iterNotify k ⟨v, ⟨[], 0, 0⟩⟩ = ⟨(v + k) % u64Mod, ⟨[], 0, 0⟩⟩ := by
  induction k generalizing v with
  | zero => simp [iterNotify, Nat.mod_eq_of_lt hv]
  | succ k ih =>
      have h1 : iterNotify (k + 1) ⟨v, ⟨[], 0, 0⟩⟩
          = iterNotify k ⟨(v + 1) % u64Mod, ⟨[], 0, 0⟩⟩ := by
        rw [show iterNotify (k + 1) ⟨v, ⟨[], 0, 0⟩⟩
            = iterNotify k (notifyAll ⟨v, ⟨[], 0, 0⟩⟩).2 from rfl,
          notifyAll_empty_zero]
      rw [h1, ih (Nat.mod_lt _ (by norm_num [u64Mod]))]
      congr 1
      rw [Nat.mod_add_mod]
      congr 1
      omega

theorem runFrom_replicate_notify (k : Nat) (sys : Sys) :
    runFrom sys (List.replicate k .notifyAll)
      = some ⟨iterNotify k sys.shared, sys.waiters⟩ := by
  induction k generalizing sys with
  | zero => rfl
  | succ k ih =>
      rw [List.replicate_succ]
      simp only [runFrom, stepOp_notify_eq]
      exact ih ⟨(notifyAll sys.shared).2, sys.waiters⟩

/-- The trace refuting C7's "disposal never fails": one waiter registers
at version 0, then exactly `2 ^ 64` broadcasts wrap the version back to
0. -/
def c7Trace : List Op :=
  .wait :: .register 0 5 :: List.replicate u64Mod .notifyAll

/-- The state reached by `c7Trace`: the version has wrapped back to the
waiter's stored version 0, but its slot was drained long ago. -/
def c7Sys : Sys := ⟨⟨0, ⟨[], 0, 0⟩⟩, [.active (some ⟨0, 0⟩)]⟩

/-- Counterexample to claim C7: after `2 ^ 64` broadcasts the version
wraps back to the stored version, disposal takes the remove branch on a
slot that no longer exists, and `slab::Slab::remove` panics — disposal
fails. -/
theorem dropWaiter_none_eq (lockOk : Bool) (s : Shared) :
    dropWaiter none lockOk s = some s := rfl

theorem dropWaiter_locked_eq (st0 : State) (s : Shared) :
    dropWaiter (some st0) false s = some s := by
  obtain ⟨v0, idx0⟩ := st0
  rfl

theorem c7_counterexample :
    runOps c7Trace = some c7Sys ∧
    c7Sys.waiters[0]? = some (.active (some ⟨0, 0⟩)) ∧
    c7Sys.shared.version = 0 ∧
    stepOp c7Sys (.drop 0 true) = none := by
  refine ⟨?_, by decide, rfl, by decide⟩
  have h3 : runFrom initSys [Op.wait, Op.register 0 5]
      = some ⟨⟨0, ⟨[Entry.occupied 5], 1, 4⟩⟩, [.active (some ⟨0, 0⟩)]⟩ := by
    decide
  have h5 : runFrom (⟨⟨0, ⟨[Entry.occupied 5], 1, 4⟩⟩,
        [.active (some ⟨0, 0⟩)]⟩ : Sys)
      (List.replicate 2 Op.notifyAll)
      = some ⟨⟨2, ⟨[], 0, 0⟩⟩, [.active (some ⟨0, 0⟩)]⟩ := by decide
  have hM : u64Mod = 2 + (u64Mod - 2) := by norm_num [u64Mod]
  have h7 : iterNotify (u64Mod - 2) ⟨2, ⟨[], 0, 0⟩⟩ = ⟨0, ⟨[], 0, 0⟩⟩ := by
    rw [iterNotify_zeroCap (by norm_num [u64Mod])]
    norm_num [u64Mod]
  calc runOps c7Trace
      = (runFrom initSys [Op.wait, Op.register 0 5]).bind
          (fun s => runFrom s (List.replicate u64Mod Op.notifyAll)) :=
        runFrom_append [Op.wait, Op.register 0 5]
          (List.replicate u64Mod Op.notifyAll) initSys
    _ = runFrom (⟨⟨0, ⟨[Entry.occupied 5], 1, 4⟩⟩,
            [.active (some ⟨0, 0⟩)]⟩ : Sys)
          (List.replicate u64Mod Op.notifyAll) := by
        rw [h3, Option.some_bind]
    _ = runFrom (⟨⟨0, ⟨[Entry.occupied 5], 1, 4⟩⟩,
            [.active (some ⟨0, 0⟩)]⟩ : Sys)
          (List.replicate (2 + (u64Mod - 2)) Op.notifyAll) := by
        rw [← hM]
    _ = runFrom (⟨⟨0, ⟨[Entry.occupied 5], 1, 4⟩⟩,
            [.active (some ⟨0, 0⟩)]⟩ : Sys)
          (List.replicate 2 Op.notifyAll
            ++ List.replicate (u64Mod - 2) Op.notifyAll) := by
        rw [List.replicate_add]
    _ = (runFrom (⟨⟨0, ⟨[Entry.occupied 5], 1, 4⟩⟩,
            [.active (some ⟨0, 0⟩)]⟩ : Sys)
          (List.replicate 2 Op.notifyAll)).bind
          (fun s => runFrom s (List.replicate (u64Mod - 2) Op.notifyAll)) :=
        runFrom_append _ _ _
    _ = runFrom (⟨⟨2, ⟨[], 0, 0⟩⟩, [.active (some ⟨0, 0⟩)]⟩ : Sys)
          (List.replicate (u64Mod - 2) Op.notifyAll) := by
        rw [h5, Option.some_bind]
    _ = some ⟨iterNotify (u64Mod - 2) ⟨2, ⟨[], 0, 0⟩⟩,
          [.active (some ⟨0, 0⟩)]⟩ := runFrom_replicate_notify _ _
    _ = some c7Sys := by
        rw [h7]
        rfl

/-- Claim C7 as amended: in every reachable state of an execution with
fewer than `2 ^ 64` broadcasts, disposal never fails; it removes the
entry at the stored slot index if and only if the stored version equals
the current version, and it is a silent no-op otherwise — in particular
when the registration is absent, stale, or the lock cannot be acquired
(poisoned shared state). -/
theorem c7_amended_drop_removes_iff_current {ops : List Op} {S : Sys}
    (i : Nat) (lockOk : Bool) (st : Option State)
    (hrun : runOps ops = some S) (hb : countNotify ops < u64Mod)
    (hw : S.waiters[i]? = some (.active st)) :
    ∃ S', stepOp S (.drop i lockOk) = some (S', []) ∧
      S'.waiters = S.waiters.set i .dropped ∧
      ((st = none ∨ lockOk = false ∨
          (∀ v idx, st = some ⟨v, idx⟩ → v ≠ S.shared.version)) →
        S'.shared = S.shared) ∧
      (∀ v idx, st = some ⟨v, idx⟩ → lockOk = true → v = S.shared.version →
        S'.shared.version = S.shared.version ∧
        S'.shared.wakers.contains idx = false ∧
        S'.shared.wakers.len + 1 = S.shared.wakers.len ∧
        (∀ j, j ≠ idx →
          S'.shared.wakers.entries[j]? = S.shared.wakers.entries[j]?)) := by
  obtain ⟨⟨hvlt, hwf, hreg, hdist⟩, _⟩ := runOps_inv hrun hb
  cases st with
  | none =>
      refine ⟨⟨S.shared, S.waiters.set i .dropped⟩, ?_, rfl, fun _ => rfl,
        fun v idx h => Option.noConfusion h⟩
      rw [stepOp_drop_eq hw, dropWaiter_none_eq]
  | some s0 =>
      obtain ⟨v0, idx0⟩ := s0
      cases lockOk with
      | false =>
          refine ⟨⟨S.shared, S.waiters.set i .dropped⟩, ?_, rfl, fun _ => rfl,
            fun v idx heq hlock => Bool.noConfusion hlock⟩
          rw [stepOp_drop_eq hw, dropWaiter_locked_eq]
      | true =>
          by_cases hv : v0 = S.shared.version
          · have hc : S.shared.wakers.contains idx0 = true :=
              (hreg i v0 idx0 hw).2 hv
            obtain ⟨p, hrem⟩ := Option.isSome_iff_exists.mp
              ((Slab.remove_isSome_iff _ idx0).mpr hc)
            obtain ⟨vv, wk⟩ := p
            obtain ⟨hncont, hother, hlen, hcap, hwfp⟩ :=
              Slab.remove_spec _ _ _ _ hrem
            have hdrop : dropWaiter (some ⟨v0, idx0⟩) true S.shared
                = some ⟨S.shared.version, wk⟩ := by
              have heq : dropWaiter (some ⟨v0, idx0⟩) true S.shared
                  = if S.shared.version = v0 then
                      (match S.shared.wakers.remove idx0 with
                        | some (_, wk) => some ⟨S.shared.version, wk⟩
                        | none => none)
                    else some S.shared := rfl
              rw [heq, if_pos hv.symm, hrem]
            refine ⟨⟨⟨S.shared.version, wk⟩, S.waiters.set i .dropped⟩, ?_, rfl,
              ?_, ?_⟩
            · rw [stepOp_drop_eq hw, hdrop]
            · rintro (h | h | h)
              · exact Option.noConfusion h
              · exact Bool.noConfusion h
              · exact absurd hv (h v0 idx0 rfl)
            · intro v idx heq hlock hveq
              obtain ⟨rfl, rfl⟩ : v = v0 ∧ idx = idx0 := by
                cases heq
                exact ⟨rfl, rfl⟩
              exact ⟨rfl, hncont, hlen, hother⟩
          · have hdrop : dropWaiter (some ⟨v0, idx0⟩) true S.shared
                = some S.shared := by
              have heq2 : dropWaiter (some ⟨v0, idx0⟩) true S.shared
                  = if S.shared.version = v0 then
                      (match S.shared.wakers.remove idx0 with
                        | some (_, wk) => some ⟨S.shared.version, wk⟩
                        | none => none)
                    else some S.shared := rfl
              rw [heq2, if_neg (fun (he : S.shared.version = v0) => hv he.symm)]
            refine ⟨⟨S.shared, S.waiters.set i .dropped⟩, ?_, rfl, fun _ => rfl,
              ?_⟩
            · rw [stepOp_drop_eq hw, hdrop]
            · intro v idx heq hlock hveq
              obtain ⟨rfl, rfl⟩ : v = v0 ∧ idx = idx0 := by
                cases heq
                exact ⟨rfl, rfl⟩
              exact absurd hveq hv

/-- Witness for the amended C7: disposing a live registered waiter with a
current registration removes exactly its slot. -/
theorem c7_amended_witness :
    ∃ S', stepOp ⟨⟨0, ⟨[.occupied 5], 1, 4⟩⟩, [.active (some ⟨0, 0⟩)]⟩
        (.drop 0 true) = some (S', []) ∧
      S'.waiters
        = (⟨⟨0, ⟨[.occupied 5], 1, 4⟩⟩,
            [.active (some ⟨0, 0⟩)]⟩ : Sys).waiters.set 0 .dropped ∧
      (((some ⟨0, 0⟩ : Option State) = none ∨ (true : Bool) = false ∨
          (∀ v idx, (some ⟨0, 0⟩ : Option State) = some ⟨v, idx⟩ →
            v ≠ (⟨⟨0, ⟨[.occupied 5], 1, 4⟩⟩,
                  [.active (some ⟨0, 0⟩)]⟩ : Sys).shared.version)) →
        S'.shared = (⟨⟨0, ⟨[.occupied 5], 1, 4⟩⟩,
            [.active (some ⟨0, 0⟩)]⟩ : Sys).shared) ∧
      (∀ v idx, (some ⟨0, 0⟩ : Option State) = some ⟨v, idx⟩ →
        (true : Bool) = true →
        v = (⟨⟨0, ⟨[.occupied 5], 1, 4⟩⟩,
              [.active (some ⟨0, 0⟩)]⟩ : Sys).shared.version →
        S'.shared.version = (⟨⟨0, ⟨[.occupied 5], 1, 4⟩⟩,
              [.active (some ⟨0, 0⟩)]⟩ : Sys).shared.version ∧
        S'.shared.wakers.contains idx = false ∧
        S'.shared.wakers.len + 1
          = (⟨⟨0, ⟨[.occupied 5], 1, 4⟩⟩,
              [.active (some ⟨0, 0⟩)]⟩ : Sys).shared.wakers.len ∧
        (∀ j, j ≠ idx → S'.shared.wakers.entries[j]?
          = (⟨⟨0, ⟨[.occupied 5], 1, 4⟩⟩,
              [.active (some ⟨0, 0⟩)]⟩ : Sys).shared.wakers.entries[j]?)) :=
  @c7_amended_drop_removes_iff_current [.wait, .register 0 5]
    ⟨⟨0, ⟨[.occupied 5], 1, 4⟩⟩, [.active (some ⟨0, 0⟩)]⟩
    0 true (some ⟨0, 0⟩) (by decide) (by decide) (by decide)

/-! ## Claim C9 -/

theorem set_getElem?_eq {β : Type} {l : List β} {i : Nat} {a : β}
    (h : l[i]? = some a) : l.set i a = l := by
  induction l generalizing i with
  | nil => simp at h
  | cons b t ih =>
      cases i with
      | zero =>
          rw [List.getElem?_cons_zero] at h
          cases h
          rfl
      | succ j =>
          rw [List.getElem?_cons_succ] at h
          show b :: t.set j a = b :: t
          rw [ih h]

/-- One `register` call on a waiter whose registration is current and
whose slot is live: the slot is overwritten in place, and nothing else
about the table changes. -/
theorem register_step_current {S : Sys} {i v key : Nat}
    (hw : S.waiters[i]? = some (.active (some ⟨v, key⟩)))
    (_hv : v = S.shared.version)
    (hc : S.shared.wakers.contains key = true) (w : Waker) :
    ∃ wk, stepOp S (.register i w)
        = some (⟨⟨S.shared.version, wk⟩,
            S.waiters.set i (.active (some ⟨v, key⟩))⟩, []) ∧
      wk.entries[key]? = some (.occupied w) ∧
      (∀ j, j ≠ key → wk.entries[j]? = S.shared.wakers.entries[j]?) ∧
      wk.len = S.shared.wakers.len ∧
      (∀ j, wk.contains j = S.shared.wakers.contains j) := by
  obtain ⟨wk, hset⟩ := Option.isSome_iff_exists.mp
    ((Slab.setOccupied_isSome_iff _ key w).mpr hc)
  obtain ⟨hkey, hother, hlen, hcont, hnext, hcap, hwfp⟩ :=
    Slab.setOccupied_spec _ _ _ _ hset
  refine ⟨wk, ?_, hkey, hother, hlen, hcont⟩
  rw [stepOp_register_eq hw]
  have hr : register (some ⟨v, key⟩) S.shared w
      = some (some ⟨v, key⟩, ⟨S.shared.version, wk⟩) := by
    simp only [register]
    rw [hset]
  rw [hr]

/-- Registering the same waker twice in a row is idempotent: the second
call leaves the whole system unchanged. -/
theorem register_register_self {S : Sys} {i v key : Nat}
    (hw : S.waiters[i]? = some (.active (some ⟨v, key⟩)))
    (hv : v = S.shared.version)
    (hc : S.shared.wakers.contains key = true) (w : Waker) :
    ∃ S₁, stepOp S (.register i w) = some (S₁, []) ∧
      stepOp S₁ (.register i w) = some (S₁, []) := by
  obtain ⟨wk, hstep, hkey, hother, hlen, hcont⟩ := register_step_current hw hv hc w
  refine ⟨_, hstep, ?_⟩
  have hlt : i < S.waiters.length := (List.getElem?_eq_some.mp hw).choose
  have hw1 : (S.waiters.set i
        (WStatus.active (some ⟨v, key⟩)))[i]?
      = some (.active (some ⟨v, key⟩)) := List.getElem?_set_self hlt
  rw [stepOp_register_eq hw1]
  have hset1 : wk.setOccupied key w = some wk := by
    unfold Slab.setOccupied
    rw [hkey, set_getElem?_eq hkey]
  have hr : register (some ⟨v, key⟩) (⟨S.shared.version, wk⟩ : Shared) w
      = some (some ⟨v, key⟩, ⟨S.shared.version, wk⟩) := by
    simp only [register]
    rw [show (⟨S.shared.version, wk⟩ : Shared).wakers.setOccupied key w
        = some wk from hset1]
  rw [hr]
  show some ((⟨⟨S.shared.version, wk⟩,
      (S.waiters.set i (WStatus.active (some ⟨v, key⟩))).set i
        (WStatus.active (some ⟨v, key⟩))⟩ : Sys), ([] : List Waker))
    = some ((⟨⟨S.shared.version, wk⟩,
      S.waiters.set i (WStatus.active (some ⟨v, key⟩))⟩ : Sys), ([] : List Waker))
  rw [List.set_set]

/-- Re-registration prefix induction for C9: starting from a waiter with
a current, live registration, any sequence of `register` calls succeeds,
keeps the stored `(version, slot)` pair, keeps the slot count, and keeps
the slot holding the most recently supplied callback. -/
theorem c9_aux (rest : List Waker) :
    ∀ (n : Nat), n ≤ rest.length →
    ∀ (S₀ : Sys) (i v key : Nat),
      S₀.waiters[i]? = some (.active (some ⟨v, key⟩)) →
      v = S₀.shared.version →
      S₀.shared.wakers.contains key = true →
      ∃ S', runFrom S₀ ((rest.take n).map (fun w => Op.register i w))
          = some S' ∧
        S'.shared.version = S₀.shared.version ∧
        S'.waiters[i]? = some (.active (some ⟨v, key⟩)) ∧
        S'.shared.wakers.contains key = true ∧
        S'.shared.wakers.len = S₀.shared.wakers.len ∧
        (S'.shared.wakers.entries[key]?
          = if n = 0 then S₀.shared.wakers.entries[key]?
            else some (.occupied (rest.getD (n - 1) 0))) := by
  induction rest with
  | nil =>
      intro n hn S₀ i v key hw hv hc
      obtain rfl : n = 0 := Nat.le_zero.mp hn
      exact ⟨S₀, rfl, rfl, hw, hc, rfl, by simp⟩
  | cons w t ih =>
      intro n hn S₀ i v key hw hv hc
      cases n with
      | zero => exact ⟨S₀, rfl, rfl, hw, hc, rfl, by simp⟩
      | succ m =>
          obtain ⟨wk, hstep, hkey, hother, hlen, hcont⟩ :=
            register_step_current hw hv hc w
          have hlt : i < S₀.waiters.length := (List.getElem?_eq_some.mp hw).choose
          have hw1 : ((⟨⟨S₀.shared.version, wk⟩,
                S₀.waiters.set i (.active (some ⟨v, key⟩))⟩ : Sys)).waiters[i]?
              = some (.active (some ⟨v, key⟩)) := List.getElem?_set_self hlt
          have hc1 : ((⟨⟨S₀.shared.version, wk⟩,
                S₀.waiters.set i (.active (some ⟨v, key⟩))⟩ : Sys)
              ).shared.wakers.contains key = true := (hcont key).trans hc
          obtain ⟨S', hrun', hver', hw', hc', hlen', hent'⟩ :=
            ih m (by simp at hn; omega)
              ⟨⟨S₀.shared.version, wk⟩,
                S₀.waiters.set i (.active (some ⟨v, key⟩))⟩ i v key hw1 hv hc1
          refine ⟨S', ?_, ?_, hw', hc', ?_, ?_⟩
          · rw [show ((w :: t).take (m + 1)).map (fun x => Op.register i x)
                = Op.register i w
                  :: ((t.take m).map (fun x => Op.register i x)) from rfl]
            simp only [runFrom]
            rw [hstep]
            exact hrun'
          · exact hver'
          · rw [hlen']
            exact hlen
          · rw [hent']
            cases m with
            | zero => simp [hkey]
            | succ p => simp

/-- Claim C9: for any sequence of `register` calls on one Waiter with no
intervening broadcast (starting unregistered or currently registered), at
every point of the sequence the waiter owns exactly one slot — the same
slot index and version throughout, holding the most recently supplied
callback, with the table's occupied count grown by one exactly when the
sequence started unregistered — and re-registering the same callback
again leaves the whole state unchanged (idempotence). -/
theorem c9_register_sequence {ops : List Op} {S : Sys} (i : Nat)
    (hrun : runOps ops = some S) (hb : countNotify ops < u64Mod)
    (st : Option State) (hw : S.waiters[i]? = some (.active st))
    (hok : st = none ∨ ∃ idx, st = some ⟨S.shared.version, idx⟩)
    (ws : List Waker) (hne : ws ≠ []) :
    ∃ key, ∀ (n : Nat), 1 ≤ n → n ≤ ws.length →
      ∃ S', runFrom S ((ws.take n).map (fun w => Op.register i w))
          = some S' ∧
        S'.shared.version = S.shared.version ∧
        S'.waiters[i]? = some (.active (some ⟨S.shared.version, key⟩)) ∧
        S'.shared.wakers.entries[key]?
          = some (.occupied (ws.getD (n - 1) 0)) ∧
        S'.shared.wakers.len
          = S.shared.wakers.len + (if st = none then 1 else 0) ∧
        (∀ w : Waker, ∃ S₁, stepOp S' (.register i w) = some (S₁, []) ∧
            stepOp S₁ (.register i w) = some (S₁, [])) := by
  obtain ⟨⟨hvlt, hwf, hreg, hdist⟩, _⟩ := runOps_inv hrun hb
  rcases ws with _ | ⟨w, t⟩
  · exact absurd rfl hne
  have hfirst : ∃ key wk₁,
      stepOp S (.register i w)
        = some (⟨⟨S.shared.version, wk₁⟩,
            S.waiters.set i (.active (some ⟨S.shared.version, key⟩))⟩, []) ∧
      wk₁.entries[key]? = some (.occupied w) ∧
      wk₁.contains key = true ∧
      wk₁.len = S.shared.wakers.len + (if st = none then 1 else 0) := by
    rcases hok with rfl | ⟨idx, rfl⟩
    · obtain ⟨p, hins⟩ := Option.isSome_iff_exists.mp
        (Slab.insert_isSome _ hwf w)
      obtain ⟨key, wk⟩ := p
      obtain ⟨hkeq, hnotc, hckey, hother, hlen, hwf1⟩ :=
        Slab.insert_spec _ _ _ _ hwf hins
      have hr : register none S.shared w
          = some (some ⟨S.shared.version, key⟩, ⟨S.shared.version, wk⟩) := by
        simp only [register]
        rw [hins]
      refine ⟨key, wk, ?_, hckey, Slab.contains_of_entry hckey,
        by simpa using hlen⟩
      rw [stepOp_register_eq hw, hr]
    · have hc : S.shared.wakers.contains idx = true := (hreg i _ idx hw).2 rfl
      obtain ⟨wk, hstep, hkey, hother, hlen, hcont⟩ :=
        register_step_current hw rfl hc w
      exact ⟨idx, wk, hstep, hkey, (hcont idx).trans hc, by simpa using hlen⟩
  obtain ⟨key, wk₁, hstep₁, hkey₁, hcont₁, hlen₁⟩ := hfirst
  have hlt : i < S.waiters.length := (List.getElem?_eq_some.mp hw).choose
  refine ⟨key, ?_⟩
  intro n h1 h2
  cases n with
  | zero => omega
  | succ m =>
      have hw₁ : ((⟨⟨S.shared.version, wk₁⟩,
            S.waiters.set i
              (.active (some ⟨S.shared.version, key⟩))⟩ : Sys)).waiters[i]?
          = some (.active (some ⟨S.shared.version, key⟩)) :=
        List.getElem?_set_self hlt
      obtain ⟨S', hrun', hver', hw', hc', hlen', hent'⟩ :=
        c9_aux t m (by simp at h2; omega)
          ⟨⟨S.shared.version, wk₁⟩,
            S.waiters.set i (.active (some ⟨S.shared.version, key⟩))⟩ i
          S.shared.version key hw₁ rfl hcont₁
      refine ⟨S', ?_, hver', hw', ?_, ?_, ?_⟩
      · rw [show ((w :: t).take (m + 1)).map (fun x => Op.register i x)
            = Op.register i w
              :: ((t.take m).map (fun x => Op.register i x)) from rfl]
        simp only [runFrom]
        rw [hstep₁]
        exact hrun'
      · rw [hent']
        cases m with
        | zero => simpa using hkey₁
        | succ p => simp
      · rw [hlen']
        exact hlen₁
      · intro w'
        exact register_register_self hw' hver'.symm hc' w'

/-- Witness for C9: the sequence `register 7; register 8` on a fresh
waiter. -/
theorem c9_witness :
    ∃ key, ∀ (n : Nat), 1 ≤ n → n ≤ ([7, 8] : List Waker).length →
      ∃ S', runFrom ⟨sharedNew, [.active none]⟩
          ((([7, 8] : List Waker).take n).map (fun w => Op.register 0 w))
          = some S' ∧
        S'.shared.version
          = (⟨sharedNew, [.active none]⟩ : Sys).shared.version ∧
        S'.waiters[0]? = some (.active (some
          ⟨(⟨sharedNew, [.active none]⟩ : Sys).shared.version, key⟩)) ∧
        S'.shared.wakers.entries[key]?
          = some (.occupied (([7, 8] : List Waker).getD (n - 1) 0)) ∧
        S'.shared.wakers.len
          = (⟨sharedNew, [.active none]⟩ : Sys).shared.wakers.len
            + (if (none : Option State) = none then 1 else 0) ∧
        (∀ w : Waker, ∃ S₁, stepOp S' (.register 0 w) = some (S₁, []) ∧
            stepOp S₁ (.register 0 w) = some (S₁, [])) :=
  @c9_register_sequence [.wait] ⟨sharedNew, [.active none]⟩ 0
    (by decide) (by decide) none (by decide) (Or.inl rfl) [7, 8] (by decide)

/-- Witness for C10: broadcasting on a fresh `NotifyOwned` with no
waiters. -/
theorem c10_witness :
    (notifyAll sharedNew).1 = [] ∧
    (notifyAll sharedNew).2.version = (sharedNew.version + 1) % u64Mod ∧
    (notifyAll sharedNew).2.wakers.capacity = 0 ∧
    (notifyAll sharedNew).2.wakers.len = 0 ∧
    (∀ k, (iterNotify (k + 1) sharedNew).wakers = ⟨[], 0, 0⟩) :=
  c10_broadcast_with_no_waiters sharedNew (by decide)

end Notify
